import Mathlib

/-!
Verification development for the `gh2` CSV exporter (`gh2/csv.py`).

The embedding below models the pure core of the program:

* A CSV row (`collections.OrderedDict`) is an ordered association list
  `Row := List (String × Option Date)`.  Dates are represented by `Nat`
  with the numeric order standing for chronological order; a Python
  `datetime` is always truthy, and the date fields of a row are either a
  date or `None`, so `Option Date` with `filter(None, ...)` keeping
  exactly the `some`s is faithful.
* `normalize_sequential_dates` is the date normalizer.  The source file
  is Python 2 (`from __future__ import absolute_import`, `.encode` before
  `csv.writer`), so `filter(None, gen)` materializes a list and the
  `if not filtered_dates: break` guard really fires on an empty result.
  `normalize_sequential_datesE` additionally models the fallibility of
  `min` (which raises `ValueError` on an empty sequence) with `Except`.
* The field extractor (`field_to_callable`, `label_events_for`,
  `fields_to_callables`, `issue_to_dict`), pull-request detection
  (`is_pull_request`) and the row-emission loop of `write_rows` are
  embedded over explicit `Issue`/`Event` structures.  `Except` models
  Python exceptions (`IndexError` from `attrs[2]`).  CSV serialization,
  the header line and `strftime` date rendering are outside the model:
  `write_rows` returns the list of data rows it would write, in order.
-/

abbrev Date := Nat

abbrev Row := List (String × Option Date)

/-- Dictionary read `row[k]` / `getattr(-, k, None)`: value stored at the
first entry whose key is `k`, `none` if absent. -/
def lookupField : Row → String → Option Date
  | [], _ => none
  | p :: rest, k => if p.1 = k then p.2 else lookupField rest k

/-- Dictionary write `row[k] = v`: replaces the value at key `k`, leaves a
row without that key unchanged. -/
def setField : Row → String → Option Date → Row
  | [], _, _ => []
  | p :: rest, k, v =>
      if p.1 = k then (p.1, v) :: setField rest k v else p :: setField rest k v

/-- Minimum of a list of dates (`min(...)` on a non-empty sequence);
`none` on the empty list. -/
def listMin : List Date → Option Date
  | [] => none
  | d :: ds => some (ds.foldl min d)

/-- Python `min` raises `ValueError` on an empty sequence. -/
def pyMin (l : List Date) : Except String Date :=
  match listMin l with
  | none => Except.error "ValueError: min arg is an empty sequence"
  | some m => Except.ok m

/-- The span-collecting loop of `normalize_sequential_dates`: scan the
row's keys in order, start collecting at the first `created_at`, stop
right after the first subsequent `closed_at`. -/
def collectDateFields : List String → List String → List String
  | [], acc => acc
  | f :: rest, acc =>
      if f = "created_at" then collectDateFields rest (acc ++ [f])
      else if acc.isEmpty then collectDateFields rest acc
      else if f = "closed_at" then acc ++ [f]
      else collectDateFields rest (acc ++ [f])

/-- `date_fields` as computed by `normalize_sequential_dates` for a row. -/
def date_fields (row : Row) : List String :=
  collectDateFields (row.map Prod.fst) []

/-- The rewriting loop of `normalize_sequential_dates`: position `i` is
the head of `fs`, `date_fields[i + 1:]` is its tail; the last field is
never processed (`i` ranges below `len(date_fields) - 1`).  The loop
breaks when no non-null value exists after the current position. -/
def normalizeWalk : Row → List String → Row
  | row, [] => row
  | row, [_] => row
  | row, f :: g :: rest =>
      match listMin ((g :: rest).filterMap (fun k => lookupField row k)),
            lookupField row f with
      | none, _ => row
      | some m, some d =>
          if m < d then normalizeWalk (setField row f (some m)) (g :: rest)
          else normalizeWalk row (g :: rest)
      | some _, none => normalizeWalk row (g :: rest)

/-- `normalize_sequential_dates` from `gh2/csv.py`. -/
def normalize_sequential_dates (row : Row) : Row :=
  normalizeWalk row (date_fields row)

/-- The rewriting loop with Python `min`'s fallibility kept explicit: the
emptiness guard (`if not filtered_dates: break`) is checked first, and
`min` is the operation that could raise. -/
def normalizeWalkE : Row → List String → Except String Row
  | row, [] => Except.ok row
  | row, [_] => Except.ok row
  | row, f :: g :: rest =>
      let filtered := (g :: rest).filterMap (fun k => lookupField row k)
      if filtered.isEmpty then Except.ok row
      else
        match pyMin filtered, lookupField row f with
        | Except.error e, _ => Except.error e
        | Except.ok m, some d =>
            if m < d then normalizeWalkE (setField row f (some m)) (g :: rest)
            else normalizeWalkE row (g :: rest)
        | Except.ok _, none => normalizeWalkE row (g :: rest)

/-- `normalize_sequential_dates` with exceptions made explicit. -/
def normalize_sequential_datesE (row : Row) : Except String Row :=
  normalizeWalkE row (date_fields row)

/-- A label-change event of an issue (`github3` event object): its event
kind, the label name `event.label["name"]`, and its attributes (dates or
null), looked up by `getattr(event, -, None)`. -/
structure Event where
  event : String
  labelName : String
  attrs : List (String × Option Date)

/-- A value of the raw `as_dict()` dictionary: null, a string, or a
nested mapping. -/
inductive RawVal where
  | vnull : RawVal
  | vstr : String → RawVal
  | vdict : List (String × String) → RawVal

/-- An issue: its current label names, its event history in natural
order, its direct attributes (the date-valued ones the tool reads), and
its raw dictionary (`as_dict()`), used for pull-request detection. -/
structure Issue where
  labels : List String
  events : List Event
  attrs : List (String × Option Date)
  raw : List (String × RawVal)

/-- `getattr(event, attrName, None)`. -/
def getattrEvent (e : Event) (attrName : String) : Option Date :=
  lookupField e.attrs attrName

/-- `getattr(issue, field, None)`. -/
def getattrIssue (issue : Issue) (field : String) : Option Date :=
  lookupField issue.attrs field

/-- `label_events_for` from `gh2/csv.py`: empty when the issue carries no
labels, otherwise the `(label-name, event)` pairs of the events of kind
`labeled`, in their natural order. -/
def label_events_for (issue : Issue) : List (String × Event) :=
  if issue.labels.isEmpty then []
  else (issue.events.filter (fun e => e.event == "labeled")).map
    (fun e => (e.labelName, e))

/-- The retriever closure built by `field_to_callable` for a composite
`label:<name>:<attr>` specifier: the named attribute of the first
matching label event, `none` when no event matches (the Python loop
falls through and returns `None`). -/
def label_retriever (label_name attrName : String) (issue : Issue) :
    Option Date :=
  match (label_events_for issue).find? (fun le => label_name == le.1) with
  | some le => getattrEvent le.2 attrName
  | none => none

/-- Python's `str.split(sep)` on a character list (no maxsplit). -/
def pySplit (sep : Char) : List Char → List (List Char)
  | [] => [[]]
  | c :: rest =>
      if c = sep then [] :: pySplit sep rest
      else
        match pySplit sep rest with
        | [] => [[c]]
        | s :: ss => (c :: s) :: ss

/-- `field.split(":")`. -/
def splitField (field : String) : List String :=
  (pySplit ':' field.data).map String.mk

/-- `field_to_callable` from `gh2/csv.py`.  Translating the specifier can
itself raise: `attrs[2]` is an `IndexError` when the split has only two
segments (`attrs[1]` is safe, guarded by `len(attrs) > 1`). -/
def field_to_callable (field : String) :
    Except String (Issue → Option Date) :=
  let attrs := splitField field
  if attrs.length > 1 ∧ attrs.get? 0 = some "label" then
    match attrs.get? 1, attrs.get? 2 with
    | some label_name, some attrName =>
        Except.ok (label_retriever label_name attrName)
    | _, _ => Except.error "IndexError: list index out of range"
  else
    Except.ok (fun issue => getattrIssue issue field)

/-- `fields_to_callables` from `gh2/csv.py`: the list comprehension
evaluates eagerly in order, so the first bad specifier raises. -/
def fields_to_callables : List String → Except String (List (Issue → Option Date))
  | [] => Except.ok []
  | f :: rest =>
      match field_to_callable f with
      | Except.error e => Except.error e
      | Except.ok r =>
          match fields_to_callables rest with
          | Except.error e => Except.error e
          | Except.ok rs => Except.ok (r :: rs)

/-- `issue_to_dict` from `gh2/csv.py`: zip of the field names with the
retrieved values.  The `.encode` step only affects string-typed values
and is the identity on dates and `None`, the value types modelled here. -/
def issue_to_dict (fields : List String) (issue : Issue) :
    Except String Row :=
  Except.map (fun rs => fields.zip (rs.map (fun r => r issue)))
    (fields_to_callables fields)

/-- `dict.get` on the raw dictionary. -/
def lookupRaw : List (String × RawVal) → String → Option RawVal
  | [], _ => none
  | p :: rest, k => if p.1 = k then some p.2 else lookupRaw rest k

/-- Python truthiness of a raw value: `None`, an empty string and an
empty mapping are falsy. -/
def py_truthy : RawVal → Bool
  | RawVal.vnull => false
  | RawVal.vstr s => !s.isEmpty
  | RawVal.vdict d => !d.isEmpty

/-- `isinstance(-, dict)`. -/
def is_dict : RawVal → Bool
  | RawVal.vdict _ => true
  | _ => false

/-- `is_pull_request` from `gh2/csv.py`: `pr and isinstance(pr, dict)`
where `pr = issue.as_dict().get("pull_request")`; a missing key gives
`None`, and `and` returns its falsy left operand, so the result is
truthy exactly when `pr` is truthy and a mapping. -/
def is_pull_request (issue : Issue) : Bool :=
  match lookupRaw issue.raw "pull_request" with
  | none => false
  | some v => py_truthy v && is_dict v

/-- Following the spec's words for the filtering rule ("an issue is a
pull request if its raw representation contains a non-null
`pull_request` mapping"), for comparison with `is_pull_request`. -/
def is_pull_request_spec (issue : Issue) : Bool :=
  match lookupRaw issue.raw "pull_request" with
  | some (RawVal.vdict _) => true
  | _ => false

/-- The row-emission loop of `write_rows` from `gh2/csv.py`: skip
pull requests unless `include_prs`, build the row, normalize it unless
`skip_normalization`, and write it.  The result is the list of data rows
written, in order; an exception while building a row aborts the run. -/
def write_rows (fields : List String) (issues : List Issue)
    (include_prs skip_normalization : Bool) : Except String (List Row) :=
  match issues with
  | [] => Except.ok []
  | issue :: rest =>
      if !include_prs && is_pull_request issue then
        write_rows fields rest include_prs skip_normalization
      else
        match issue_to_dict fields issue with
        | Except.error e => Except.error e
        | Except.ok d =>
            match write_rows fields rest include_prs skip_normalization with
            | Except.error e => Except.error e
            | Except.ok rows =>
                Except.ok
                  ((if skip_normalization then d
                    else normalize_sequential_dates d) :: rows)

/-! ### Reads and writes on rows -/

theorem lookupField_setField_ne (row : Row) (f k : String) (v : Option Date)
    (h : k ≠ f) : lookupField (setField row f v) k = lookupField row k := by
  induction row with
  | nil => rfl
  | cons p rest ih =>
      simp only [setField]
      by_cases hp : p.1 = f
      · have hk : p.1 ≠ k := fun hh => h (hh.symm.trans hp)
        rw [if_pos hp]
        simp only [lookupField]
        rw [if_neg hk, if_neg hk]
        exact ih
      · rw [if_neg hp]
        simp only [lookupField]
        by_cases hk : p.1 = k
        · rw [if_pos hk, if_pos hk]
        · rw [if_neg hk, if_neg hk]
          exact ih

theorem lookupField_setField_of_some (row : Row) (f : String) (v : Option Date)
    (d : Date) (h : lookupField row f = some d) :
    lookupField (setField row f v) f = v := by
  induction row with
  | nil => simp [lookupField] at h
  | cons p rest ih =>
      simp only [lookupField] at h
      simp only [setField]
      by_cases hp : p.1 = f
      · rw [if_pos hp]
        simp only [lookupField]
        rw [if_pos hp]
      · rw [if_neg hp]
        simp only [lookupField]
        rw [if_neg hp]
        rw [if_neg hp] at h
        exact ih h

theorem lookupField_setField_cases (row : Row) (f : String) (v : Option Date) :
    lookupField (setField row f v) f = v ∨
      (lookupField (setField row f v) f = none ∧ lookupField row f = none) := by
  induction row with
  | nil => exact Or.inr ⟨rfl, rfl⟩
  | cons p rest ih =>
      simp only [setField, lookupField]
      by_cases hp : p.1 = f
      · rw [if_pos hp]
        simp only [lookupField]
        rw [if_pos hp, if_pos hp]
        exact Or.inl rfl
      · rw [if_neg hp]
        simp only [lookupField]
        rw [if_neg hp, if_neg hp]
        exact ih

theorem setField_keys (row : Row) (f : String) (v : Option Date) :
    (setField row f v).map Prod.fst = row.map Prod.fst := by
  induction row with
  | nil => rfl
  | cons p rest ih =>
      simp only [setField]
      by_cases hp : p.1 = f
      · rw [if_pos hp]
        simp [ih]
      · rw [if_neg hp]
        simp [ih]

/-! ### Minimum of a date list -/

theorem foldl_min_le_init (ds : List Date) : ∀ d : Date, ds.foldl min d ≤ d := by
  induction ds with
  | nil => intro d; simp
  | cons c cs ih =>
      intro d
      exact le_trans (ih (min d c)) (min_le_left d c)

theorem foldl_min_le_mem (ds : List Date) :
    ∀ d : Date, ∀ x ∈ ds, ds.foldl min d ≤ x := by
  induction ds with
  | nil => intro d x hx; simp at hx
  | cons c cs ih =>
      intro d x hx
      rcases List.mem_cons.1 hx with h | h
      · subst h
        exact le_trans (foldl_min_le_init cs (min d x)) (min_le_right d x)
      · exact ih (min d c) x h

theorem foldl_min_mem (ds : List Date) :
    ∀ d : Date, ds.foldl min d = d ∨ ds.foldl min d ∈ ds := by
  induction ds with
  | nil => intro d; exact Or.inl rfl
  | cons c cs ih =>
      intro d
      rcases ih (min d c) with h | h
      · rcases min_choice d c with hm | hm
        · exact Or.inl (by rw [List.foldl_cons, h, hm])
        · refine Or.inr ?_
          rw [List.foldl_cons, h, hm]
          exact List.mem_cons_self c cs
      · exact Or.inr (List.mem_cons_of_mem c h)

theorem listMin_le (l : List Date) (m : Date) (h : listMin l = some m) :
    ∀ x ∈ l, m ≤ x := by
  cases l with
  | nil => simp [listMin] at h
  | cons d ds =>
      simp only [listMin, Option.some.injEq] at h
      subst h
      intro x hx
      rcases List.mem_cons.1 hx with h | h
      · subst h
        exact foldl_min_le_init ds x
      · exact foldl_min_le_mem ds d x h

theorem listMin_mem (l : List Date) (m : Date) (h : listMin l = some m) :
    m ∈ l := by
  cases l with
  | nil => simp [listMin] at h
  | cons d ds =>
      simp only [listMin, Option.some.injEq] at h
      subst h
      rcases foldl_min_mem ds d with h | h
      · rw [h]
        exact List.mem_cons_self d ds
      · exact List.mem_cons_of_mem d h

theorem listMin_eq_none (l : List Date) : listMin l = none ↔ l = [] := by
  cases l <;> simp [listMin]

/-! ### Invariants of the rewriting walk -/

/-- Chronological ordering on optional dates: constrains only pairs of
non-null values. -/
def chainLe (a b : Option Date) : Prop :=
  ∀ x y, a = some x → b = some y → x ≤ y

theorem not_mem_dropLast {l : List String} {k : String} (h : k ∉ l) :
    k ∉ l.dropLast :=
  fun hm => h ((List.dropLast_sublist l).subset hm)

theorem normalizeWalk_keys (fs : List String) :
    ∀ row : Row, (normalizeWalk row fs).map Prod.fst = row.map Prod.fst := by
  induction fs with
  | nil => intro row; rfl
  | cons f tl ih =>
      intro row
      cases tl with
      | nil => rfl
      | cons g rest =>
          simp only [normalizeWalk]
          split
          · rfl
          · rename_i m d hmin hd
            by_cases hlt : m < d
            · rw [if_pos hlt, ih (setField row f (some m)), setField_keys]
            · rw [if_neg hlt]
              exact ih row
          · exact ih row

theorem normalizeWalk_lookup_not_mem_dropLast (fs : List String) :
    ∀ (row : Row) (k : String), k ∉ fs.dropLast →
      lookupField (normalizeWalk row fs) k = lookupField row k := by
  induction fs with
  | nil => intro row k _; rfl
  | cons f tl ih =>
      intro row k hk
      cases tl with
      | nil => rfl
      | cons g rest =>
          simp only [List.dropLast, List.mem_cons, not_or] at hk
          obtain ⟨hkf, hktl⟩ := hk
          simp only [normalizeWalk]
          split
          · rfl
          · rename_i m d hmin hd
            by_cases hlt : m < d
            · rw [if_pos hlt, ih (setField row f (some m)) k hktl,
                lookupField_setField_ne row f k (some m) hkf]
            · rw [if_neg hlt]
              exact ih row k hktl
          · exact ih row k hktl

theorem normalizeWalk_lookup_not_mem (fs : List String) (row : Row)
    (k : String) (h : k ∉ fs) :
    lookupField (normalizeWalk row fs) k = lookupField row k :=
  normalizeWalk_lookup_not_mem_dropLast fs row k (not_mem_dropLast h)

theorem normalizeWalk_none (fs : List String) :
    ∀ (row : Row) (k : String), lookupField row k = none →
      lookupField (normalizeWalk row fs) k = none := by
  induction fs with
  | nil => intro row k h; exact h
  | cons f tl ih =>
      intro row k h
      cases tl with
      | nil => exact h
      | cons g rest =>
          simp only [normalizeWalk]
          split
          · exact h
          · rename_i m d hmin hd
            by_cases hlt : m < d
            · rw [if_pos hlt]
              have hkf : k ≠ f := by
                intro e
                rw [e, hd] at h
                exact Option.noConfusion h
              refine ih (setField row f (some m)) k ?_
              rw [lookupField_setField_ne row f k (some m) hkf]
              exact h
            · rw [if_neg hlt]
              exact ih row k h
          · exact ih row k h

theorem normalizeWalk_le (fs : List String) :
    ∀ (row : Row) (k : String) (x : Date), lookupField row k = some x →
      ∃ y, lookupField (normalizeWalk row fs) k = some y ∧ y ≤ x := by
  induction fs with
  | nil => intro row k x h; exact ⟨x, h, le_refl x⟩
  | cons f tl ih =>
      intro row k x h
      cases tl with
      | nil => exact ⟨x, h, le_refl x⟩
      | cons g rest =>
          simp only [normalizeWalk]
          split
          · exact ⟨x, h, le_refl x⟩
          · rename_i m d hmin hd
            by_cases hlt : m < d
            · rw [if_pos hlt]
              by_cases hkf : k = f
              · subst hkf
                have hx : x = d := by
                  rw [h] at hd
                  exact Option.some.inj hd
                have h2 : lookupField (setField row k (some m)) k = some m :=
                  lookupField_setField_of_some row k (some m) d hd
                obtain ⟨y, hy, hle⟩ := ih (setField row k (some m)) k m h2
                exact ⟨y, hy, le_trans hle (le_trans (le_of_lt hlt) (le_of_eq hx.symm))⟩
              · have h2 : lookupField (setField row f (some m)) k = some x := by
                  rw [lookupField_setField_ne row f k (some m) hkf]
                  exact h
                exact ih (setField row f (some m)) k x h2
            · rw [if_neg hlt]
              exact ih row k x h
          · exact ih row k x h

theorem normalizeWalk_lower_bound (fs : List String) :
    ∀ (row : Row) (b : Date),
      (∀ k ∈ fs, ∀ y, lookupField row k = some y → b ≤ y) →
      ∀ k ∈ fs, ∀ y, lookupField (normalizeWalk row fs) k = some y → b ≤ y := by
  induction fs with
  | nil => intro row b _ k hk; simp at hk
  | cons f tl ih =>
      intro row b H k hk y hy
      cases tl with
      | nil =>
          exact H k hk y hy
      | cons g rest =>
          have H' : ∀ kk ∈ g :: rest, ∀ z, lookupField row kk = some z → b ≤ z :=
            fun kk hkk => H kk (List.mem_cons_of_mem f hkk)
          simp only [normalizeWalk] at hy
          split at hy
          · exact H k hk y hy
          · rename_i m d hmin hd
            have hbm : b ≤ m := by
              obtain ⟨kk, hkk, hlk⟩ :=
                List.mem_filterMap.1 (listMin_mem _ m hmin)
              exact H' kk hkk m hlk
            by_cases hlt : m < d
            · rw [if_pos hlt] at hy
              have H2 : ∀ kk ∈ g :: rest, ∀ z,
                  lookupField (setField row f (some m)) kk = some z → b ≤ z := by
                intro kk hkk z hz
                by_cases hkf : kk = f
                · subst hkf
                  rcases lookupField_setField_cases row kk (some m) with hc | hc
                  · rw [hc] at hz
                    rw [Option.some.inj hz] at hbm
                    exact hbm
                  · rw [hc.1] at hz
                    exact Option.noConfusion hz
                · rw [lookupField_setField_ne row f kk (some m) hkf] at hz
                  exact H' kk hkk z hz
              rcases List.mem_cons.1 hk with hkf | hktl
              · subst hkf
                by_cases hfm : k ∈ g :: rest
                · exact ih (setField row k (some m)) b H2 k hfm y hy
                · rw [normalizeWalk_lookup_not_mem (g :: rest) _ k hfm] at hy
                  rcases lookupField_setField_cases row k (some m) with hc | hc
                  · rw [hc] at hy
                    rw [Option.some.inj hy] at hbm
                    exact hbm
                  · rw [hc.1] at hy
                    exact Option.noConfusion hy
              · exact ih (setField row f (some m)) b H2 k hktl y hy
            · rw [if_neg hlt] at hy
              rcases List.mem_cons.1 hk with hkf | hktl
              · subst hkf
                by_cases hfm : k ∈ g :: rest
                · exact ih row b H' k hfm y hy
                · rw [normalizeWalk_lookup_not_mem (g :: rest) row k hfm] at hy
                  exact H k (List.mem_cons_self k _) y hy
              · exact ih row b H' k hktl y hy
          · rename_i m hmin hd
            rcases List.mem_cons.1 hk with hkf | hktl
            · subst hkf
              by_cases hfm : k ∈ g :: rest
              · exact ih row b H' k hfm y hy
              · rw [normalizeWalk_lookup_not_mem (g :: rest) row k hfm] at hy
                exact H k (List.mem_cons_self k _) y hy
            · exact ih row b H' k hktl y hy

theorem pairwise_chainLe_none (row : Row) (l : List String)
    (h : ∀ k ∈ l, lookupField row k = none) :
    List.Pairwise chainLe (l.map (lookupField row)) := by
  induction l with
  | nil => simp
  | cons a tl ih =>
      rw [List.map_cons, List.pairwise_cons]
      constructor
      · intro b hb
        rw [List.mem_map] at hb
        obtain ⟨kk, hkk, rfl⟩ := hb
        intro x y hx hy
        rw [h kk (List.mem_cons_of_mem a hkk)] at hy
        exact Option.noConfusion hy
      · exact ih (fun k hk => h k (List.mem_cons_of_mem a hk))

theorem normalizeWalk_sorted (fs : List String) :
    ∀ row : Row, fs.Nodup →
      List.Pairwise chainLe (fs.map (lookupField (normalizeWalk row fs))) := by
  induction fs with
  | nil => intro row _; simp
  | cons f tl ih =>
      intro row hnd
      rcases List.nodup_cons.1 hnd with ⟨hf, htl⟩
      cases tl with
      | nil => simp [normalizeWalk]
      | cons g rest =>
          simp only [normalizeWalk]
          split
          · rename_i u v hmin
            have hall : ∀ kk ∈ g :: rest, lookupField row kk = none := by
              intro kk hkk
              exact List.filterMap_eq_nil_iff.1 ((listMin_eq_none _).1 hmin) kk hkk
            rw [List.map_cons, List.pairwise_cons]
            constructor
            · intro b hb
              rw [List.mem_map] at hb
              obtain ⟨kk, hkk, rfl⟩ := hb
              intro u y hx hy
              rw [hall kk hkk] at hy
              exact Option.noConfusion hy
            · exact pairwise_chainLe_none row (g :: rest) hall
          · rename_i m d hmin hd
            have hbound : ∀ kk ∈ g :: rest, ∀ z,
                lookupField row kk = some z → m ≤ z := by
              intro kk hkk z hz
              exact listMin_le _ m hmin z (List.mem_filterMap.2 ⟨kk, hkk, hz⟩)
            by_cases hlt : m < d
            · rw [if_pos hlt]
              rw [List.map_cons, List.pairwise_cons]
              constructor
              · intro b hb
                rw [List.mem_map] at hb
                obtain ⟨kk, hkk, rfl⟩ := hb
                intro x y hx hy
                rw [normalizeWalk_lookup_not_mem (g :: rest) _ f hf,
                  lookupField_setField_of_some row f (some m) d hd] at hx
                have hxm : m = x := Option.some.inj hx
                have H2 : ∀ kk2 ∈ g :: rest, ∀ z,
                    lookupField (setField row f (some m)) kk2 = some z → m ≤ z := by
                  intro kk2 hkk2 z hz
                  have hkf : kk2 ≠ f := fun e => hf (e ▸ hkk2)
                  rw [lookupField_setField_ne row f kk2 (some m) hkf] at hz
                  exact hbound kk2 hkk2 z hz
                have hmy :=
                  normalizeWalk_lower_bound (g :: rest) (setField row f (some m)) m
                    H2 kk hkk y hy
                exact hxm ▸ hmy
              · exact ih (setField row f (some m)) htl
            · rw [if_neg hlt]
              have hdm : d ≤ m := not_lt.1 hlt
              rw [List.map_cons, List.pairwise_cons]
              constructor
              · intro b hb
                rw [List.mem_map] at hb
                obtain ⟨kk, hkk, rfl⟩ := hb
                intro x y hx hy
                rw [normalizeWalk_lookup_not_mem (g :: rest) row f hf, hd] at hx
                have hxd : d = x := Option.some.inj hx
                have Hd : ∀ kk2 ∈ g :: rest, ∀ z,
                    lookupField row kk2 = some z → d ≤ z :=
                  fun kk2 hkk2 z hz => le_trans hdm (hbound kk2 hkk2 z hz)
                have hdy := normalizeWalk_lower_bound (g :: rest) row d Hd kk hkk y hy
                exact hxd ▸ hdy
              · exact ih row htl
          · rename_i m hmin hd
            rw [List.map_cons, List.pairwise_cons]
            constructor
            · intro b hb
              rw [List.mem_map] at hb
              obtain ⟨kk, hkk, rfl⟩ := hb
              intro x y hx hy
              rw [normalizeWalk_lookup_not_mem (g :: rest) row f hf, hd] at hx
              exact Option.noConfusion hx
            · exact ih row htl

theorem normalizeWalk_fixpoint (fs : List String) :
    ∀ row : Row, List.Pairwise chainLe (fs.map (lookupField row)) →
      normalizeWalk row fs = row := by
  induction fs with
  | nil => intro row _; rfl
  | cons f tl ih =>
      intro row hp
      cases tl with
      | nil => rfl
      | cons g rest =>
          rw [List.map_cons, List.pairwise_cons] at hp
          obtain ⟨hhead, htail⟩ := hp
          simp only [normalizeWalk]
          split
          · rfl
          · rename_i m d hmin hd
            obtain ⟨kk, hkk, hlk⟩ := List.mem_filterMap.1 (listMin_mem _ m hmin)
            have hdm : d ≤ m :=
              hhead (lookupField row kk) (List.mem_map.2 ⟨kk, hkk, rfl⟩) d m hd hlk
            rw [if_neg (not_lt.2 hdm)]
            exact ih row htail
          · exact ih row htail

/-! ### Structure of the collected span -/

theorem collectDateFields_spec (keys : List String) :
    ∀ acc : List String, ∃ l,
      collectDateFields keys acc = acc ++ l ∧ l.Sublist keys := by
  induction keys with
  | nil => intro acc; exact ⟨[], (List.append_nil acc).symm, List.Sublist.refl []⟩
  | cons f rest ih =>
      intro acc
      simp only [collectDateFields]
      by_cases h1 : f = "created_at"
      · rw [if_pos h1]
        obtain ⟨l, hl, hs⟩ := ih (acc ++ [f])
        refine ⟨f :: l, ?_, List.Sublist.cons₂ f hs⟩
        rw [hl, List.append_assoc]
        rfl
      · rw [if_neg h1]
        by_cases h2 : acc.isEmpty
        · rw [if_pos h2]
          obtain ⟨l, hl, hs⟩ := ih acc
          exact ⟨l, hl, List.Sublist.cons f hs⟩
        · rw [if_neg h2]
          by_cases h3 : f = "closed_at"
          · rw [if_pos h3]
            exact ⟨[f], rfl, List.Sublist.cons₂ f (List.nil_sublist rest)⟩
          · rw [if_neg h3]
            obtain ⟨l, hl, hs⟩ := ih (acc ++ [f])
            refine ⟨f :: l, ?_, List.Sublist.cons₂ f hs⟩
            rw [hl, List.append_assoc]
            rfl

theorem date_fields_sublist (row : Row) :
    (date_fields row).Sublist (row.map Prod.fst) := by
  obtain ⟨l, hl, hs⟩ := collectDateFields_spec (row.map Prod.fst) []
  rw [date_fields, hl]
  simpa using hs

theorem date_fields_nodup (row : Row) (h : (row.map Prod.fst).Nodup) :
    (date_fields row).Nodup :=
  h.sublist (date_fields_sublist row)

theorem collectDateFields_closed_last (keys : List String) :
    ∀ acc : List String, "closed_at" ∉ acc →
      "closed_at" ∈ collectDateFields keys acc →
      ∃ pre, collectDateFields keys acc = pre ++ ["closed_at"] ∧
        "closed_at" ∉ pre := by
  induction keys with
  | nil =>
      intro acc hacc hmem
      exact absurd hmem hacc
  | cons f rest ih =>
      intro acc hacc hmem
      simp only [collectDateFields] at hmem ⊢
      by_cases h1 : f = "created_at"
      · rw [if_pos h1] at hmem ⊢
        refine ih (acc ++ [f]) ?_ hmem
        intro hc
        rcases List.mem_append.1 hc with hc | hc
        · exact hacc hc
        · rw [List.mem_singleton] at hc
          exact absurd (hc.trans h1) (by decide)
      · rw [if_neg h1] at hmem ⊢
        by_cases h2 : acc.isEmpty
        · rw [if_pos h2] at hmem ⊢
          exact ih acc hacc hmem
        · rw [if_neg h2] at hmem ⊢
          by_cases h3 : f = "closed_at"
          · rw [if_pos h3] at hmem ⊢
            subst h3
            exact ⟨acc, rfl, hacc⟩
          · rw [if_neg h3] at hmem ⊢
            refine ih (acc ++ [f]) ?_ hmem
            intro hc
            rcases List.mem_append.1 hc with hc | hc
            · exact hacc hc
            · rw [List.mem_singleton] at hc
              exact h3 hc.symm

theorem date_fields_closed_last (row : Row)
    (h : "closed_at" ∈ date_fields row) :
    ∃ pre, date_fields row = pre ++ ["closed_at"] ∧ "closed_at" ∉ pre :=
  collectDateFields_closed_last (row.map Prod.fst) [] (List.not_mem_nil _) h

theorem collectDateFields_no_start (keys : List String)
    (h : "created_at" ∉ keys) : collectDateFields keys [] = [] := by
  induction keys with
  | nil => rfl
  | cons f rest ih =>
      simp only [collectDateFields]
      have h1 : ¬ f = "created_at" :=
        fun e => h (e ▸ List.mem_cons_self f rest)
      have h2 : ([] : List String).isEmpty = true := rfl
      rw [if_neg h1, if_pos h2]
      exact ih (fun hm => h (List.mem_cons_of_mem f hm))

/-! ### Top-level facts about the normalizer -/

theorem normalize_keys (row : Row) :
    (normalize_sequential_dates row).map Prod.fst = row.map Prod.fst :=
  normalizeWalk_keys (date_fields row) row

theorem date_fields_normalize (row : Row) :
    date_fields (normalize_sequential_dates row) = date_fields row := by
  rw [date_fields, normalize_keys, date_fields]

theorem normalizeWalkE_ok (fs : List String) :
    ∀ row : Row, normalizeWalkE row fs = Except.ok (normalizeWalk row fs) := by
  induction fs with
  | nil => intro row; rfl
  | cons f tl ih =>
      intro row
      cases tl with
      | nil => rfl
      | cons g rest =>
          cases hflt : (g :: rest).filterMap (fun k => lookupField row k) with
          | nil =>
              show normalizeWalkE row (f :: g :: rest) =
                Except.ok (normalizeWalk row (f :: g :: rest))
              simp only [normalizeWalkE, normalizeWalk, hflt]
              rfl
          | cons d0 ds =>
              show normalizeWalkE row (f :: g :: rest) =
                Except.ok (normalizeWalk row (f :: g :: rest))
              simp only [normalizeWalkE, normalizeWalk, hflt]
              cases hd : lookupField row f with
              | none => exact ih row
              | some d =>
                  show (if ds.foldl min d0 < d
                      then normalizeWalkE
                        (setField row f (some (ds.foldl min d0))) (g :: rest)
                      else normalizeWalkE row (g :: rest)) =
                    Except.ok (if ds.foldl min d0 < d
                      then normalizeWalk
                        (setField row f (some (ds.foldl min d0))) (g :: rest)
                      else normalizeWalk row (g :: rest))
                  by_cases hlt : ds.foldl min d0 < d
                  · rw [if_pos hlt, if_pos hlt]
                    exact ih (setField row f (some (ds.foldl min d0)))
                  · rw [if_neg hlt, if_neg hlt]
                    exact ih row

/-! ### The claims about the normalizer -/

/-- C1: for every row on which a span is established (from the first
occurrence of `created_at` to the first subsequent `closed_at`), after
`normalize_sequential_dates` returns, any two non-null values at span
positions `i < j` satisfy `value[i] <= value[j]` chronologically. -/
theorem c1_span_values_sorted (row : Row)
    (hnd : (row.map Prod.fst).Nodup)
    (_hspan : "closed_at" ∈ date_fields row) :
    ∀ (i j : Fin (date_fields row).length), (i : Nat) < (j : Nat) →
      ∀ x y,
        lookupField (normalize_sequential_dates row)
          ((date_fields row).get i) = some x →
        lookupField (normalize_sequential_dates row)
          ((date_fields row).get j) = some y →
        x ≤ y := by
  intro i j hij x y hx hy
  have hp : List.Pairwise chainLe
      ((date_fields row).map (lookupField (normalize_sequential_dates row))) :=
    normalizeWalk_sorted (date_fields row) row (date_fields_nodup row hnd)
  rw [List.pairwise_iff_get] at hp
  have hi : (i : Nat) <
      ((date_fields row).map
        (lookupField (normalize_sequential_dates row))).length := by
    rw [List.length_map]
    exact i.2
  have hj : (j : Nat) <
      ((date_fields row).map
        (lookupField (normalize_sequential_dates row))).length := by
    rw [List.length_map]
    exact j.2
  have hc := hp ⟨i, hi⟩ ⟨j, hj⟩ (Fin.mk_lt_mk.mpr hij)
  rw [List.get_eq_getElem, List.get_eq_getElem, List.getElem_map,
    List.getElem_map] at hc
  rw [List.get_eq_getElem] at hx hy
  exact hc x y hx hy

/-- C2: the normalizer never raises; in particular, when every span value
after `created_at` is null the walk stops at once and the row comes back
unchanged. -/
theorem c2_never_raises (row : Row) :
    normalize_sequential_datesE row =
        Except.ok (normalize_sequential_dates row) ∧
      ((∀ k ∈ (date_fields row).tail, lookupField row k = none) →
        normalize_sequential_dates row = row) := by
  constructor
  · exact normalizeWalkE_ok (date_fields row) row
  · intro hnull
    have h0 : normalize_sequential_dates row =
        normalizeWalk row (date_fields row) := rfl
    rw [h0]
    cases hdf : date_fields row with
    | nil => rfl
    | cons f tl =>
        rw [hdf] at hnull
        simp only [List.tail_cons] at hnull
        cases tl with
        | nil => rfl
        | cons g rest =>
            simp only [normalizeWalk]
            have hnil : (g :: rest).filterMap (fun k => lookupField row k) = [] :=
              List.filterMap_eq_nil_iff.2 (fun kk hkk => hnull kk hkk)
            rw [hnil]
            rfl

/-- C3 fails on the code: in a span of exactly two entries the first
position is still processed, so an out-of-order `created_at` IS clamped
down to `closed_at`. -/
theorem c3_counterexample :
    date_fields [("created_at", some 5), ("closed_at", some 3)] =
        ["created_at", "closed_at"] ∧
      normalize_sequential_dates [("created_at", some 5), ("closed_at", some 3)] ≠
        [("created_at", some 5), ("closed_at", some 3)] := by
  decide

/-- C3 amended: in a span of exactly two entries, `closed_at` and every
other field are left alone, but `created_at` is clamped down to
`closed_at` when both are non-null and `created_at` is strictly later. -/
theorem c3_amended (row : Row)
    (h : date_fields row = ["created_at", "closed_at"]) :
    normalize_sequential_dates row =
      match lookupField row "created_at", lookupField row "closed_at" with
      | some d, some m =>
          if m < d then setField row "created_at" (some m) else row
      | _, _ => row := by
  have h0 : normalize_sequential_dates row =
      normalizeWalk row (date_fields row) := rfl
  rw [h0, h]
  simp only [normalizeWalk]
  cases hcr : lookupField row "created_at" with
  | none =>
      cases hc : lookupField row "closed_at" with
      | none =>
          have hn : (["closed_at"] : List String).filterMap
              (fun k => lookupField row k) = [] := by
            simp [hc]
          rw [hn]
          rfl
      | some m =>
          have hn : (["closed_at"] : List String).filterMap
              (fun k => lookupField row k) = [m] := by
            simp [hc]
          rw [hn]
          rfl
  | some d =>
      cases hc : lookupField row "closed_at" with
      | none =>
          have hn : (["closed_at"] : List String).filterMap
              (fun k => lookupField row k) = [] := by
            simp [hc]
          rw [hn]
          rfl
      | some m =>
          have hn : (["closed_at"] : List String).filterMap
              (fun k => lookupField row k) = [m] := by
            simp [hc]
          rw [hn]
          show (if m < d
              then normalizeWalk (setField row "created_at" (some m)) ["closed_at"]
              else normalizeWalk row ["closed_at"]) =
            (if m < d then setField row "created_at" (some m) else row)
          by_cases hlt : m < d
          · rw [if_pos hlt, if_pos hlt]
            rfl
          · rw [if_neg hlt, if_neg hlt]
            rfl

/-- C4 fails on the code: when `created_at` occurs but no `closed_at`
follows it, the collected span runs to the end of the row and the walk
still rewrites fields, so the row is NOT returned unchanged. -/
theorem c4_counterexample :
    "created_at" ∈ ([("created_at", some 5), ("x", some 3)] : Row).map Prod.fst ∧
      "closed_at" ∉ ([("created_at", some 5), ("x", some 3)] : Row).map Prod.fst ∧
      normalize_sequential_dates [("created_at", some 5), ("x", some 3)] ≠
        [("created_at", some 5), ("x", some 3)] := by
  decide

/-- C4 amended: a row without `created_at` among its keys is returned
completely unchanged; when `created_at` occurs but `closed_at` never
follows it, the walk instead runs over the fields from `created_at` to
the end of the row and may modify them. -/
theorem c4_amended (row : Row) (h : "created_at" ∉ row.map Prod.fst) :
    normalize_sequential_dates row = row := by
  show normalizeWalk row (collectDateFields (row.map Prod.fst) []) = row
  rw [collectDateFields_no_start (row.map Prod.fst) h]
  rfl

/-- C5: normalization is idempotent. -/
theorem c5_idempotent (row : Row) (hnd : (row.map Prod.fst).Nodup) :
    normalize_sequential_dates (normalize_sequential_dates row) =
      normalize_sequential_dates row := by
  have hp : List.Pairwise chainLe
      ((date_fields row).map (lookupField (normalize_sequential_dates row))) :=
    normalizeWalk_sorted (date_fields row) row (date_fields_nodup row hnd)
  have h0 : normalize_sequential_dates (normalize_sequential_dates row) =
      normalizeWalk (normalize_sequential_dates row)
        (date_fields (normalize_sequential_dates row)) := rfl
  rw [h0, date_fields_normalize row]
  exact normalizeWalk_fixpoint (date_fields row) (normalize_sequential_dates row) hp

/-- C6: the normalizer is a forward clamp: fields outside the span are
untouched, the final span field `closed_at` is never rewritten, null
values stay null, and an existing value is only ever replaced by an
earlier one. -/
theorem c6_forward_clamp (row : Row)
    (hspan : "closed_at" ∈ date_fields row) :
    (∀ k, k ∉ date_fields row →
        lookupField (normalize_sequential_dates row) k = lookupField row k) ∧
      lookupField (normalize_sequential_dates row) "closed_at" =
        lookupField row "closed_at" ∧
      (∀ k, lookupField row k = none →
        lookupField (normalize_sequential_dates row) k = none) ∧
      (∀ k x, lookupField row k = some x →
        ∃ y, lookupField (normalize_sequential_dates row) k = some y ∧ y ≤ x) := by
  refine ⟨?_, ?_, ?_, ?_⟩
  · intro k hk
    exact normalizeWalk_lookup_not_mem (date_fields row) row k hk
  · obtain ⟨pre, hpre, hnp⟩ := date_fields_closed_last row hspan
    have hdl : "closed_at" ∉ (date_fields row).dropLast := by
      rw [hpre, List.dropLast_concat]
      exact hnp
    exact normalizeWalk_lookup_not_mem_dropLast (date_fields row) row "closed_at" hdl
  · intro k hk
    exact normalizeWalk_none (date_fields row) row k hk
  · intro k x hx
    exact normalizeWalk_le (date_fields row) row k x hx

/-! ### The claims about the extractor, pull-request filter and emission -/

theorem find_label_pairs (label_name attrName : String) :
    ∀ evs : List Event,
      (match (evs.map (fun e => (e.labelName, e))).find?
          (fun le => label_name == le.1) with
        | some le => getattrEvent le.2 attrName
        | none => none) =
      (evs.find? (fun e => label_name == e.labelName)).bind
        (fun e => getattrEvent e attrName) := by
  intro evs
  induction evs with
  | nil => rfl
  | cons e tl ih =>
      by_cases hm : (label_name == e.labelName) = true
      · simp [List.find?_cons, hm, Option.bind]
      · rw [Bool.not_eq_true] at hm
        simp only [List.map_cons, List.find?_cons, hm]
        exact ih

theorem field_to_callable_composite (field label_name attrName : String)
    (hf : splitField field = ["label", label_name, attrName]) :
    field_to_callable field =
      Except.ok (label_retriever label_name attrName) := by
  simp [field_to_callable, hf]

/-- C7: for a well-formed composite specifier `label:<name>:<attr>` and
an issue that carries labels, the retriever scans only events of kind
`labeled` in their natural order and returns attribute `<attr>` of the
first event whose label name equals `<name>`; `none` when no event
matches. -/
theorem c7_first_matching_event (field label_name attrName : String)
    (hf : splitField field = ["label", label_name, attrName])
    (r : Issue → Option Date)
    (hr : field_to_callable field = Except.ok r)
    (issue : Issue) (hl : issue.labels ≠ []) :
    r issue =
      ((issue.events.filter (fun e => e.event == "labeled")).find?
          (fun e => label_name == e.labelName)).bind
        (fun e => getattrEvent e attrName) := by
  have hr2 : r = label_retriever label_name attrName := by
    rw [field_to_callable_composite field label_name attrName hf] at hr
    exact (Except.ok.inj hr).symm
  have hne : issue.labels.isEmpty = false := by
    cases hlab : issue.labels with
    | nil => exact absurd hlab hl
    | cons a l => rfl
  rw [hr2]
  show (match (label_events_for issue).find? (fun le => label_name == le.1) with
      | some le => getattrEvent le.2 attrName
      | none => none) = _
  rw [label_events_for, hne]
  show (match ((issue.events.filter (fun e => e.event == "labeled")).map
        (fun e => (e.labelName, e))).find? (fun le => label_name == le.1) with
      | some le => getattrEvent le.2 attrName
      | none => none) = _
  exact find_label_pairs label_name attrName
    (issue.events.filter (fun e => e.event == "labeled"))

/-- C8: for an issue whose current label set is empty, a composite
`label:<name>:<attr>` retriever returns null without consulting the
event history, whatever that history contains. -/
theorem c8_no_labels_null (field label_name attrName : String)
    (hf : splitField field = ["label", label_name, attrName])
    (r : Issue → Option Date)
    (hr : field_to_callable field = Except.ok r)
    (issue : Issue) (hl : issue.labels = []) :
    r issue = none := by
  have hr2 : r = label_retriever label_name attrName := by
    rw [field_to_callable_composite field label_name attrName hf] at hr
    exact (Except.ok.inj hr).symm
  rw [hr2]
  show (match (label_events_for issue).find? (fun le => label_name == le.1) with
      | some le => getattrEvent le.2 attrName
      | none => none) = none
  rw [label_events_for, hl]
  rfl

/-- C9 fails on the code: an empty `pull_request` mapping is a non-null
mapping, but `pr and isinstance(pr, dict)` is falsy for an empty dict, so
the code does not classify the issue as a pull request. -/
theorem c9_counterexample :
    is_pull_request_spec
        { labels := [], events := [], attrs := [],
          raw := [("pull_request", RawVal.vdict [])] } = true ∧
      is_pull_request
        { labels := [], events := [], attrs := [],
          raw := [("pull_request", RawVal.vdict [])] } = false :=
  ⟨rfl, rfl⟩

/-- C9 amended: an issue is classified as a pull request exactly when its
raw dictionary holds a non-null, NON-EMPTY `pull_request` mapping, and
`write_rows` emits a row for an issue if and only if it is not a pull
request or the include-pull-requests flag is set. -/
theorem c9_amended :
    (∀ issue : Issue, is_pull_request issue = true ↔
      ∃ entries, lookupRaw issue.raw "pull_request" =
          some (RawVal.vdict entries) ∧ entries ≠ []) ∧
    (∀ (fields : List String) (issues : List Issue) (inc skip : Bool),
      write_rows fields issues inc skip =
        (issues.filter (fun i => inc || !is_pull_request i)).mapM
          (fun i => Except.map
            (fun d => if skip then d else normalize_sequential_dates d)
            (issue_to_dict fields i))) := by
  constructor
  · intro issue
    cases hlr : lookupRaw issue.raw "pull_request" with
    | none => simp [is_pull_request, hlr]
    | some v =>
        cases v with
        | vnull => simp [is_pull_request, hlr, py_truthy, is_dict]
        | vstr s => simp [is_pull_request, hlr, py_truthy, is_dict]
        | vdict entries =>
            cases entries with
            | nil => simp [is_pull_request, hlr, py_truthy, is_dict]
            | cons p ps => simp [is_pull_request, hlr, py_truthy, is_dict]
  · intro fields issues inc skip
    induction issues with
    | nil => rfl
    | cons issue rest ih =>
        simp only [write_rows, List.filter_cons]
        by_cases hpr : (!inc && is_pull_request issue) = true
        · rw [if_pos hpr]
          have hp2 : (inc || !is_pull_request issue) = false := by
            simp only [Bool.and_eq_true] at hpr
            obtain ⟨h1, h2⟩ := hpr
            rw [Bool.not_eq_true'] at h1
            rw [h1, h2]
            rfl
          rw [hp2]
          simp only [Bool.false_eq_true, if_false]
          exact ih
        · rw [if_neg hpr]
          have hp3 : (inc || !is_pull_request issue) = true := by
            cases hinc : inc with
            | true => rfl
            | false =>
                cases hb : is_pull_request issue with
                | false => rfl
                | true =>
                    refine absurd ?_ hpr
                    rw [hinc, hb]
                    rfl
          rw [hp3]
          simp only [if_true]
          rw [List.mapM_cons, ← ih]
          cases hid : issue_to_dict fields issue with
          | error e => rfl
          | ok d =>
              cases hw : write_rows fields rest inc skip with
              | error e => rfl
              | ok rows => rfl

/-- C10: a `label:`-prefixed specifier with only two colon-separated
segments makes `field_to_callable` raise an IndexError at
specifier-translation time, and the error propagates through
`fields_to_callables`; no retriever is returned. -/
theorem c10_two_segment_raises (field lname : String)
    (h : splitField field = ["label", lname]) :
    field_to_callable field =
        Except.error "IndexError: list index out of range" ∧
      fields_to_callables ["number", field] =
        Except.error "IndexError: list index out of range" := by
  have h1 : field_to_callable field =
      Except.error "IndexError: list index out of range" := by
    simp [field_to_callable, h]
  refine ⟨h1, ?_⟩
  simp only [fields_to_callables, h1]
  rfl

/-! ### Concrete witnesses -/

/-- Fixture row for the C1 witness. -/
def wrow1 : Row :=
  [("number", some 1), ("created_at", some 9), ("a", none),
   ("b", some 3), ("closed_at", some 7)]

/-- C1 witness at a concrete out-of-order row. -/
theorem c1_witness :
    (wrow1.map Prod.fst).Nodup ∧ "closed_at" ∈ date_fields wrow1 ∧
      (∀ (i j : Fin (date_fields wrow1).length), (i : Nat) < (j : Nat) →
        ∀ x y,
          lookupField (normalize_sequential_dates wrow1)
            ((date_fields wrow1).get i) = some x →
          lookupField (normalize_sequential_dates wrow1)
            ((date_fields wrow1).get j) = some y →
          x ≤ y) :=
  ⟨by decide, by decide, c1_span_values_sorted wrow1 (by decide) (by decide)⟩

/-- Fixture row for the C2 witness: every span value after `created_at`
is null, including `closed_at`. -/
def wrow2 : Row := [("created_at", some 5), ("mid", none), ("closed_at", none)]

/-- C2 witness: the all-null-tail row goes through without an error and
unchanged. -/
theorem c2_witness :
    normalize_sequential_datesE wrow2 =
        Except.ok (normalize_sequential_dates wrow2) ∧
      normalize_sequential_dates wrow2 = wrow2 :=
  ⟨(c2_never_raises wrow2).1, (c2_never_raises wrow2).2 (by decide)⟩

/-- Fixture row for the C3 witness. -/
def wrow3 : Row := [("x", some 1), ("created_at", some 6), ("closed_at", some 2)]

/-- C3 witness: a two-entry span at a concrete row. -/
theorem c3_witness :
    date_fields wrow3 = ["created_at", "closed_at"] ∧
      normalize_sequential_dates wrow3 =
        (match lookupField wrow3 "created_at", lookupField wrow3 "closed_at" with
          | some d, some m =>
              if m < d then setField wrow3 "created_at" (some m) else wrow3
          | _, _ => wrow3) :=
  ⟨by decide, c3_amended wrow3 (by decide)⟩

/-- Fixture row for the C4 witness: no `created_at` key at all. -/
def wrow4 : Row := [("x", some 1), ("closed_at", some 0)]

/-- C4 witness: a row without `created_at` is unchanged. -/
theorem c4_witness :
    "created_at" ∉ wrow4.map Prod.fst ∧
      normalize_sequential_dates wrow4 = wrow4 :=
  ⟨by decide, c4_amended wrow4 (by decide)⟩

/-- Fixture row for the C5 witness. -/
def wrow5 : Row := [("created_at", some 9), ("a", some 3), ("closed_at", some 7)]

/-- C5 witness: idempotence at a concrete row that normalization
rewrites. -/
theorem c5_witness :
    (wrow5.map Prod.fst).Nodup ∧
      normalize_sequential_dates (normalize_sequential_dates wrow5) =
        normalize_sequential_dates wrow5 :=
  ⟨by decide, c5_idempotent wrow5 (by decide)⟩

/-- Fixture row for the C6 witness. -/
def wrow6 : Row :=
  [("id", some 0), ("created_at", some 9), ("a", none), ("closed_at", some 4)]

/-- C6 witness: the frame conditions at a concrete row. -/
theorem c6_witness :
    "closed_at" ∈ date_fields wrow6 ∧
      ((∀ k, k ∉ date_fields wrow6 →
          lookupField (normalize_sequential_dates wrow6) k =
            lookupField wrow6 k) ∧
        lookupField (normalize_sequential_dates wrow6) "closed_at" =
          lookupField wrow6 "closed_at" ∧
        (∀ k, lookupField wrow6 k = none →
          lookupField (normalize_sequential_dates wrow6) k = none) ∧
        (∀ k x, lookupField wrow6 k = some x →
          ∃ y, lookupField (normalize_sequential_dates wrow6) k = some y ∧
            y ≤ x)) :=
  ⟨by decide, c6_forward_clamp wrow6 (by decide)⟩

/-- Fixture issue for the C7 witness: one non-`labeled` event for the
label, then two `labeled` events for it with different timestamps. -/
def wissue7 : Issue :=
  { labels := ["foo"],
    events :=
      [{ event := "unlabeled", labelName := "foo",
         attrs := [("created_at", some 1)] },
       { event := "labeled", labelName := "foo",
         attrs := [("created_at", some 11)] },
       { event := "labeled", labelName := "foo",
         attrs := [("created_at", some 22)] }],
    attrs := [], raw := [] }

/-- C7 witness: the retriever built for `label:foo:created_at` returns
the first `labeled` event's attribute. -/
theorem c7_witness :
    label_retriever "foo" "created_at" wissue7 =
      ((wissue7.events.filter (fun e => e.event == "labeled")).find?
          (fun e => "foo" == e.labelName)).bind
        (fun e => getattrEvent e "created_at") :=
  c7_first_matching_event "label:foo:created_at" "foo" "created_at" rfl
    (label_retriever "foo" "created_at") rfl wissue7 (by decide)

/-- Fixture issue for the C8 witness: no current labels, but a matching
`labeled` event in the history. -/
def wissue8 : Issue :=
  { labels := [],
    events :=
      [{ event := "labeled", labelName := "foo",
         attrs := [("created_at", some 11)] }],
    attrs := [], raw := [] }

/-- C8 witness: with an empty label set the retriever returns null even
though a matching event exists. -/
theorem c8_witness : label_retriever "foo" "created_at" wissue8 = none :=
  c8_no_labels_null "label:foo:created_at" "foo" "created_at" rfl
    (label_retriever "foo" "created_at") rfl wissue8 rfl

/-- Fixture issue for the C9 witness: a populated `pull_request`
mapping. -/
def wissue9 : Issue :=
  { labels := [], events := [], attrs := [],
    raw := [("pull_request", RawVal.vdict [("url", "u")])] }

/-- C9 witness: the amended classification at a concrete issue. -/
theorem c9_witness :
    is_pull_request wissue9 = true ↔
      ∃ entries, lookupRaw wissue9.raw "pull_request" =
          some (RawVal.vdict entries) ∧ entries ≠ [] :=
  c9_amended.1 wissue9

/-- C10 witness: the concrete malformed specifier `label:foo`. -/
theorem c10_witness :
    field_to_callable "label:foo" =
        Except.error "IndexError: list index out of range" ∧
      fields_to_callables ["number", "label:foo"] =
        Except.error "IndexError: list index out of range" :=
  c10_two_segment_raises "label:foo" "foo" (by decide)
